import Mathlib

/-!
Verification of the palette-extraction algorithm of
`src/components/BikeViewer.jsx` (`extractPaletteFromImage`, lines 89-169) and
of the state handling in its callers `onExtract` (lines 201-212) and
`onFileDrop` (lines 214-228).

The pixel buffer produced by `ctx.getImageData` is modelled as a list of RGBA
samples; the loop `for (let i = 0; i < data.length; i += 4)` visits exactly the
successive samples of that list.  The histogram is a JavaScript `Map`, which
iterates in insertion order and keeps a key's position when its value is
updated; it is modelled as an association list updated in place.  ES2019
`Array.prototype.sort` is stable, so `entries.sort((a, b) => b[1] - a[1])` is
modelled by a stable insertion sort on the descending count order.  The test
`Math.sqrt(dr*dr+dg*dg+db*db) > 30` on a natural radicand holds exactly when
the radicand exceeds 900 = 30²; `distinct` stores the squared comparison and
the bridge to `Real.sqrt` is proved below.  `Math.round` on a nonnegative
quotient `s / c` is `⌊s/c + 1/2⌋ = (2*s + c) / (2*c)` in natural division.
-/

/-- One RGBA sample of the decoded pixel buffer: the bytes
`data[i] .. data[i+3]` read at lines 111-114 of the source. -/
structure Pixel where
  r : Nat
  g : Nat
  b : Nat
  a : Nat
deriving DecidableEq

/-- An (R, G, B) triple as pushed onto `palette` in the source. -/
abbrev RGB := Nat × Nat × Nat

/-- A pixel survives into the histogram iff it passes both filters of the
source loop: `if (a < 200) continue` (line 115) and
`if (maxRGB > 245 && minRGB > 230) continue` (line 120). -/
def pixelKept (p : Pixel) : Bool :=
  !(decide (p.a < 200)) &&
    !(decide (245 < max p.r (max p.g p.b)) && decide (230 < min p.r (min p.g p.b)))

/-- The packed histogram key `(rq << 10) | (gq << 5) | bq` (line 126). -/
def encodeKey (rq gq bq : Nat) : Nat :=
  ((rq <<< 10) ||| (gq <<< 5)) ||| bq

/-- Quantization of a pixel to 5 bits per channel followed by key packing
(lines 123-126). -/
def quantKey (p : Pixel) : Nat :=
  encodeKey (p.r >>> 3) (p.g >>> 3) (p.b >>> 3)

/-- `hist.set(key, (hist.get(key) || 0) + 1)` (line 127) on an
insertion-ordered association list: an existing key is updated in place, a new
key is appended at the end, as a JavaScript `Map` does. -/
def bumpKey (k : Nat) : List (Nat × Nat) → List (Nat × Nat)
  | [] => [(k, 1)]
  | e :: rest => if e.1 = k then (k, e.2 + 1) :: rest else e :: bumpKey k rest

/-- The histogram loop of lines 110-128, with the accumulated map explicit. -/
def buildHistAux (h : List (Nat × Nat)) : List Pixel → List (Nat × Nat)
  | [] => h
  | p :: rest => buildHistAux (if pixelKept p then bumpKey (quantKey p) h else h) rest

/-- The histogram built over the whole buffer, starting from the empty map
`new Map()` of line 108. -/
def buildHist (pixels : List Pixel) : List (Nat × Nat) :=
  buildHistAux [] pixels

/-- One step of the stable sort modelling
`Array.from(hist.entries()).sort((a, b) => b[1] - a[1])` (line 130): the new
entry moves past strictly larger counts only, so entries with equal counts
keep their insertion order. -/
def insertEntry (e : Nat × Nat) : List (Nat × Nat) → List (Nat × Nat)
  | [] => [e]
  | f :: rest => if e.2 < f.2 then f :: insertEntry e rest else e :: f :: rest

/-- Stable descending-count sort of the histogram entries (line 130). -/
def sortEntries : List (Nat × Nat) → List (Nat × Nat)
  | [] => []
  | e :: rest => insertEntry e (sortEntries rest)

/-- Key decoding and bucket-midpoint reconstruction of lines 140-146:
channels `(key >> s) & 31` rebuilt as `(q << 3) | 4`. -/
def candOfKey (k : Nat) : RGB :=
  ((((k >>> 10) &&& 31) <<< 3) ||| 4,
   (((k >>> 5) &&& 31) <<< 3) ||| 4,
   ((k &&& 31) <<< 3) ||| 4)

/-- Squared Euclidean distance of the `distinct` helper (lines 132-137). -/
def distSq (c1 c2 : RGB) : Nat :=
  let dr := ((c1.1 : Int) - (c2.1 : Int)).natAbs
  let dg := ((c1.2.1 : Int) - (c2.2.1 : Int)).natAbs
  let db := ((c1.2.2 : Int) - (c2.2.2 : Int)).natAbs
  dr * dr + dg * dg + db * db

/-- The acceptance test `Math.sqrt(dr*dr+dg*dg+db*db) > 30` (line 136); for a
natural radicand this holds exactly when the radicand exceeds 900. -/
def distinct (c1 c2 : RGB) : Bool :=
  decide (900 < distSq c1 c2)

/-- The greedy selection loop of lines 139-151.  Note that the source tests
`if (palette.length >= maxColors) break` only after the conditional push, so
with `maxColors = 0` a first candidate is still accepted. -/
def greedy (maxColors : Nat) : List (Nat × Nat) → List RGB → List RGB
  | [], palette => palette
  | e :: rest, palette =>
    let cand := candOfKey e.1
    let palette' := if palette.all fun p => distinct p cand then palette ++ [cand] else palette
    if maxColors ≤ palette'.length then palette' else greedy maxColors rest palette'

/-- `Math.round(s / c)` for naturals: `⌊s/c + 1/2⌋ = (2*s + c) / (2*c)`. -/
def jsRound (s c : Nat) : Nat :=
  (2 * s + c) / (2 * c)

/-- The fallback average of lines 153-165: mean R, G, B over the pixels that
pass only the alpha test `if (a < 200) continue` — the near-white filter is
not applied here. -/
def fallbackAvg (pixels : List Pixel) : List RGB :=
  let kept := pixels.filter fun p => !(decide (p.a < 200))
  let count := kept.length
  if 0 < count then
    [(jsRound (kept.map Pixel.r).sum count,
      jsRound (kept.map Pixel.g).sum count,
      jsRound (kept.map Pixel.b).sum count)]
  else []

/-- The full extraction pipeline after image decoding: histogram, stable sort,
greedy selection, and the fallback branch `if (palette.length === 0)`
(lines 108-165), at the level of RGB triples. -/
def extractPalette (pixels : List Pixel) (maxColors : Nat) : List RGB :=
  let entries := sortEntries (buildHist pixels)
  let palette := greedy maxColors entries []
  if palette.length = 0 then fallbackAvg pixels else palette

/-- `n.toString(16).padStart(2, '0')` for a byte value `n ≤ 255`: exactly two
lowercase hex digits (`Nat.digitChar` maps 0-9 to digits and 10-15 to
`a`-`f`). -/
def toHexByte (n : Nat) : List Char :=
  [Nat.digitChar (n / 16), Nat.digitChar (n % 16)]

/-- The hex formatting of line 168: a leading `#` and three byte fields. -/
def rgbToHex (c : RGB) : String :=
  String.mk ('#' :: (toHexByte c.1 ++ toHexByte c.2.1 ++ toHexByte c.2.2))

/-- `extractPaletteFromImage` from the decoded pixel buffer on: the palette of
lines 108-165 mapped to hex strings by line 168. -/
def extractPaletteFromImage (pixels : List Pixel) (maxColors : Nat) : List String :=
  (extractPalette pixels maxColors).map rgbToHex

/-- The sixteen characters a lowercase hex digit can be. -/
def hexChars : List Char :=
  "0123456789abcdef".data

/-- A string matching `^#[0-9a-f]\x7b6\x7d$`: seven characters, a leading `#`,
then six lowercase hex digits. -/
def isHexColor (s : String) : Prop :=
  s.data.length = 7 ∧ s.data.head? = some '#' ∧ ∀ c ∈ s.data.tail, c ∈ hexChars

/-- Total count the histogram stores under key `k` (summed, so the statement
does not presuppose key uniqueness). -/
def countKey (h : List (Nat × Nat)) (k : Nat) : Nat :=
  (h.map fun e => if e.1 = k then e.2 else 0).sum

/-- The component state touched by the two extraction handlers:
`palette`, `error`, `extracting` and `imageUrl` of lines 182, 197-199. -/
structure ViewerState where
  palette : List String
  error : String
  extracting : Bool
  imageUrl : String
deriving DecidableEq

/-- Net effect of one `onExtract` call (lines 201-212) on the component state,
given the settled outcome of `extractPaletteFromImage`: `setError('')` and
`setExtracting(true)` run first, then `if (cols && cols.length) setPalette(cols)`
on resolution or `setError(...)` on rejection, and finally
`setExtracting(false)`. -/
def onExtract (s : ViewerState) (outcome : Except Unit (List String)) : ViewerState :=
  let s1 : ViewerState := { s with error := "", extracting := true }
  match outcome with
  | Except.ok cols =>
    let s2 := if cols.isEmpty then s1 else { s1 with palette := cols }
    { s2 with extracting := false }
  | Except.error _ =>
    { s1 with
      error := "Could not extract colors from the image. Try another link or download and drop it here.",
      extracting := false }

/-- Net effect of one `onFileDrop` call (lines 214-228): nothing happens
without a file; otherwise `setError('')`, `setExtracting(true)` and
`setImageUrl(url)` run before the extraction settles, then the same
resolution/rejection handling as `onExtract` with its own message. -/
def onFileDrop (s : ViewerState) (file : Option String)
    (outcome : Except Unit (List String)) : ViewerState :=
  match file with
  | none => s
  | some url =>
    let s1 : ViewerState := { s with error := "", extracting := true, imageUrl := url }
    match outcome with
    | Except.ok cols =>
      let s2 := if cols.isEmpty then s1 else { s1 with palette := cols }
      { s2 with extracting := false }
    | Except.error _ =>
      { s1 with
        error := "Could not extract colors from the dropped image.",
        extracting := false }

/-! ### Bitwise arithmetic helpers -/

theorem or_four (y : Nat) : (y <<< 3) ||| 4 = 8 * y + 4 := by
  have h := Nat.mul_add_lt_is_or (b := 4) (i := 3) (by norm_num) y
  rw [Nat.shiftLeft_eq, Nat.mul_comm y]
  norm_num at h ⊢
  omega

theorem and_thirtyone (x : Nat) : x &&& 31 = x % 32 := by
  have h := Nat.and_pow_two_sub_one_eq_mod x 5
  norm_num at h
  exact h

theorem encodeKey_eq (rq gq bq : Nat) (hg : gq < 32) (hb : bq < 32) :
    encodeKey rq gq bq = 1024 * rq + 32 * gq + bq := by
  unfold encodeKey
  rw [Nat.shiftLeft_eq, Nat.shiftLeft_eq]
  have h1 := Nat.mul_add_lt_is_or (b := gq * 2 ^ 5) (i := 10)
    (by norm_num; omega) rq
  have h2 := Nat.mul_add_lt_is_or (b := bq) (i := 5) (by norm_num; omega) (32 * rq + gq)
  have e1 : rq * 2 ^ 10 ||| gq * 2 ^ 5 = 2 ^ 5 * (32 * rq + gq) := by
    rw [Nat.mul_comm rq, ← h1]; ring
  rw [e1, ← h2]; ring

theorem decode_hi (x : Nat) : (x >>> 10) &&& 31 = x / 1024 % 32 := by
  rw [Nat.shiftRight_eq_div_pow, and_thirtyone]

theorem decode_mid (x : Nat) : (x >>> 5) &&& 31 = x / 32 % 32 := by
  rw [Nat.shiftRight_eq_div_pow, and_thirtyone]

theorem candOfKey_eq (k : Nat) :
    candOfKey k = (8 * (k / 1024 % 32) + 4, 8 * (k / 32 % 32) + 4, 8 * (k % 32) + 4) := by
  unfold candOfKey
  rw [decode_hi, decode_mid, and_thirtyone, or_four, or_four, or_four]

theorem candOfKey_le (k : Nat) :
    (candOfKey k).1 ≤ 252 ∧ (candOfKey k).2.1 ≤ 252 ∧ (candOfKey k).2.2 ≤ 252 := by
  rw [candOfKey_eq]
  refine ⟨?_, ?_, ?_⟩ <;> simp <;> omega

theorem sqrt_gt_thirty (d : Nat) : (30 : ℝ) < Real.sqrt (d : ℝ) ↔ 900 < d := by
  rw [Real.lt_sqrt (by norm_num : (0 : ℝ) ≤ 30)]
  norm_num

/-! ### Histogram lemmas -/

theorem countKey_cons (e : Nat × Nat) (t : List (Nat × Nat)) (k : Nat) :
    countKey (e :: t) k = (if e.1 = k then e.2 else 0) + countKey t k := by
  simp [countKey]

theorem countKey_bumpKey (k k' : Nat) (h : List (Nat × Nat)) :
    countKey (bumpKey k h) k' = countKey h k' + (if k = k' then 1 else 0) := by
  induction h with
  | nil => simp [bumpKey, countKey]
  | cons e t ih =>
    by_cases he : e.1 = k
    · rw [show bumpKey k (e :: t) = (k, e.2 + 1) :: t by simp [bumpKey, he],
        countKey_cons, countKey_cons]
      by_cases hk : k = k'
      · subst hk
        rw [if_pos rfl, if_pos rfl, if_pos he]
        omega
      · have he' : ¬ e.1 = k' := fun h1 => hk (he.symm.trans h1)
        rw [if_neg hk, if_neg hk, if_neg he']
        omega
    · rw [show bumpKey k (e :: t) = e :: bumpKey k t by simp [bumpKey, he],
        countKey_cons, countKey_cons, ih]
      omega

theorem countKey_buildHistAux (pixels : List Pixel) :
    ∀ (h : List (Nat × Nat)) (k : Nat),
      countKey (buildHistAux h pixels) k =
        countKey h k +
          (pixels.filter fun p => pixelKept p && (quantKey p == k)).length := by
  induction pixels with
  | nil => intro h k; simp [buildHistAux]
  | cons p rest ih =>
    intro h k
    by_cases hp : pixelKept p = true
    · by_cases hq : quantKey p = k
      · simp [buildHistAux, hp, hq, ih, countKey_bumpKey]
        omega
      · simp [buildHistAux, hp, hq, ih, countKey_bumpKey]
    · simp [buildHistAux, hp, ih]

theorem buildHist_count (pixels : List Pixel) (k : Nat) :
    countKey (buildHist pixels) k =
      (pixels.filter fun p => pixelKept p && (quantKey p == k)).length := by
  have h := countKey_buildHistAux pixels [] k
  simpa [buildHist, countKey] using h

theorem buildHistAux_filtered (pixels : List Pixel)
    (hall : ∀ p ∈ pixels, pixelKept p = false) :
    ∀ h : List (Nat × Nat), buildHistAux h pixels = h := by
  induction pixels with
  | nil => intro h; rfl
  | cons p rest ih =>
    intro h
    have hp : pixelKept p = false := hall p (List.mem_cons_self p rest)
    have hrest : ∀ q ∈ rest, pixelKept q = false := fun q hq => hall q (List.mem_cons_of_mem p hq)
    simp [buildHistAux, hp, ih hrest]

theorem buildHist_filtered (pixels : List Pixel)
    (hall : ∀ p ∈ pixels, pixelKept p = false) : buildHist pixels = [] :=
  buildHistAux_filtered pixels hall []

/-! ### Stable sort lemmas -/

theorem insertEntry_perm (e : Nat × Nat) (l : List (Nat × Nat)) :
    List.Perm (insertEntry e l) (e :: l) := by
  induction l with
  | nil => exact List.Perm.refl _
  | cons f t ih =>
    by_cases hc : e.2 < f.2
    · simp only [insertEntry, if_pos hc]
      exact (List.Perm.cons f ih).trans (List.Perm.swap e f t)
    · simp only [insertEntry, if_neg hc]
      exact List.Perm.refl _

theorem sortEntries_perm (l : List (Nat × Nat)) : List.Perm (sortEntries l) l := by
  induction l with
  | nil => exact List.Perm.refl _
  | cons e t ih =>
    exact (insertEntry_perm e (sortEntries t)).trans (List.Perm.cons e ih)

theorem mem_sortEntries (l : List (Nat × Nat)) (x : Nat × Nat) :
    x ∈ sortEntries l ↔ x ∈ l :=
  (sortEntries_perm l).mem_iff

theorem insertEntry_pairwise (e : Nat × Nat) (l : List (Nat × Nat))
    (h : l.Pairwise fun a b => b.2 ≤ a.2) :
    (insertEntry e l).Pairwise fun a b => b.2 ≤ a.2 := by
  induction l with
  | nil => simp [insertEntry]
  | cons f t ih =>
    rcases List.pairwise_cons.mp h with ⟨hf, ht⟩
    by_cases hc : e.2 < f.2
    · simp only [insertEntry, if_pos hc]
      refine List.pairwise_cons.mpr ⟨?_, ih ht⟩
      intro x hx
      rcases List.mem_cons.mp ((insertEntry_perm e t).mem_iff.mp hx) with hx | hx
      · subst hx; omega
      · exact hf x hx
    · simp only [insertEntry, if_neg hc]
      refine List.pairwise_cons.mpr ⟨?_, h⟩
      intro x hx
      rcases List.mem_cons.mp hx with hx | hx
      · subst hx; omega
      · have := hf x hx; omega

theorem sortEntries_pairwise (l : List (Nat × Nat)) :
    (sortEntries l).Pairwise fun a b => b.2 ≤ a.2 := by
  induction l with
  | nil => simp [sortEntries]
  | cons e t ih => exact insertEntry_pairwise e (sortEntries t) ih

theorem insertEntry_filter (e : Nat × Nat) (l : List (Nat × Nat)) (c : Nat) :
    (insertEntry e l).filter (fun f => f.2 == c) =
      (e :: l).filter (fun f => f.2 == c) := by
  induction l with
  | nil => rfl
  | cons f t ih =>
    by_cases hc : e.2 < f.2
    · simp only [insertEntry, if_pos hc]
      by_cases hf : f.2 = c
      · have he : ¬ e.2 = c := by omega
        simp [List.filter_cons, hf, he] at ih ⊢
        simpa [he] using ih
      · simp [List.filter_cons, hf] at ih ⊢
        exact ih
    · simp only [insertEntry, if_neg hc]

theorem sortEntries_filter (l : List (Nat × Nat)) (c : Nat) :
    (sortEntries l).filter (fun f => f.2 == c) = l.filter (fun f => f.2 == c) := by
  induction l with
  | nil => rfl
  | cons e t ih =>
    have h1 := insertEntry_filter e (sortEntries t) c
    simp only [sortEntries, h1, List.filter_cons]
    by_cases he : e.2 = c
    · simp [he, ih]
    · simp [he, ih]

theorem sortEntries_ne_nil (l : List (Nat × Nat)) (h : l ≠ []) : sortEntries l ≠ [] := by
  intro hs
  exact h (List.Perm.eq_nil ((sortEntries_perm l).symm.trans (hs ▸ List.Perm.refl _)))


/-! ### Greedy loop lemmas -/

theorem greedy_decomp (m : Nat) (es : List (Nat × Nat)) :
    ∀ pal : List RGB, ∃ es' : List (Nat × Nat),
      es'.Sublist es ∧ greedy m es pal = pal ++ es'.map fun e => candOfKey e.1 := by
  induction es with
  | nil => intro pal; exact ⟨[], List.Sublist.refl _, by simp [greedy]⟩
  | cons e rest ih =>
    intro pal
    simp only [greedy]
    by_cases hall : (pal.all fun p => distinct p (candOfKey e.1)) = true
    · rw [if_pos hall]
      by_cases hb : m ≤ (pal ++ [candOfKey e.1]).length
      · rw [if_pos hb]
        exact ⟨[e], (List.nil_sublist rest).cons₂ e, by simp⟩
      · rw [if_neg hb]
        obtain ⟨es', hsub, heq⟩ := ih (pal ++ [candOfKey e.1])
        exact ⟨e :: es', hsub.cons₂ e, by simp [heq]⟩
    · rw [if_neg hall]
      by_cases hb : m ≤ pal.length
      · rw [if_pos hb]
        exact ⟨[], List.nil_sublist _, by simp⟩
      · rw [if_neg hb]
        obtain ⟨es', hsub, heq⟩ := ih pal
        exact ⟨es', hsub.cons e, heq⟩

theorem greedy_pairwise (m : Nat) (es : List (Nat × Nat)) :
    ∀ pal : List RGB, (pal.Pairwise fun c1 c2 => 900 < distSq c1 c2) →
      (greedy m es pal).Pairwise fun c1 c2 => 900 < distSq c1 c2 := by
  induction es with
  | nil => intro pal h; simpa [greedy] using h
  | cons e rest ih =>
    intro pal h
    simp only [greedy]
    by_cases hall : (pal.all fun p => distinct p (candOfKey e.1)) = true
    · have hpush : (pal ++ [candOfKey e.1]).Pairwise fun c1 c2 => 900 < distSq c1 c2 := by
        refine List.pairwise_append.mpr ⟨h, List.pairwise_singleton _ _, ?_⟩
        intro x hx y hy
        rcases List.mem_singleton.mp hy with rfl
        have := List.all_eq_true.mp hall x hx
        simpa [distinct] using this
      rw [if_pos hall]
      by_cases hb : m ≤ (pal ++ [candOfKey e.1]).length
      · rw [if_pos hb]; exact hpush
      · rw [if_neg hb]; exact ih _ hpush
    · rw [if_neg hall]
      by_cases hb : m ≤ pal.length
      · rw [if_pos hb]; exact h
      · rw [if_neg hb]; exact ih _ h

theorem greedy_length (m : Nat) (es : List (Nat × Nat)) :
    ∀ pal : List RGB, pal.length < m → (greedy m es pal).length ≤ m := by
  induction es with
  | nil => intro pal h; simp [greedy]; omega
  | cons e rest ih =>
    intro pal h
    simp only [greedy]
    by_cases hall : (pal.all fun p => distinct p (candOfKey e.1)) = true
    · rw [if_pos hall]
      by_cases hb : m ≤ (pal ++ [candOfKey e.1]).length
      · rw [if_pos hb]
        simp at hb ⊢
        omega
      · rw [if_neg hb]
        refine ih _ ?_
        simp at hb ⊢
        omega
    · rw [if_neg hall]
      by_cases hb : m ≤ pal.length
      · rw [if_pos hb]; omega
      · rw [if_neg hb]; exact ih _ (by omega)

theorem greedy_cons_head (m : Nat) (e : Nat × Nat) (rest : List (Nat × Nat)) :
    ∃ tl, greedy m (e :: rest) [] = candOfKey e.1 :: tl := by
  have h1 : greedy m (e :: rest) [] =
      if m ≤ 1 then [candOfKey e.1] else greedy m rest [candOfKey e.1] := by
    simp [greedy]
  rw [h1]
  by_cases hb : m ≤ 1
  · rw [if_pos hb]; exact ⟨[], rfl⟩
  · rw [if_neg hb]
    obtain ⟨es', _, heq⟩ := greedy_decomp m rest [candOfKey e.1]
    exact ⟨es'.map fun f => candOfKey f.1, by simpa using heq⟩

/-! ### Fallback and bound lemmas -/

theorem sum_le_mul_length (l : List Nat) (b : Nat) (h : ∀ x ∈ l, x ≤ b) :
    l.sum ≤ b * l.length := by
  induction l with
  | nil => simp
  | cons x t ih =>
    have hx := h x (List.mem_cons_self x t)
    have ht := ih fun y hy => h y (List.mem_cons_of_mem x hy)
    simp only [List.sum_cons, List.length_cons, Nat.mul_succ]
    omega

theorem jsRound_le (s c b : Nat) (hc : 0 < c) (hs : s ≤ b * c) : jsRound s c ≤ b := by
  unfold jsRound
  have h2 : 2 * s + c < (b + 1) * (2 * c) := by nlinarith
  have h3 := (Nat.div_lt_iff_lt_mul (by omega : 0 < 2 * c)).mpr h2
  omega

theorem fallbackAvg_length (pixels : List Pixel) : (fallbackAvg pixels).length ≤ 1 := by
  simp only [fallbackAvg]
  split
  · rfl
  · simp

theorem fallbackAvg_channels (pixels : List Pixel)
    (h : ∀ p ∈ pixels, p.r ≤ 255 ∧ p.g ≤ 255 ∧ p.b ≤ 255) :
    ∀ c ∈ fallbackAvg pixels, c.1 ≤ 255 ∧ c.2.1 ≤ 255 ∧ c.2.2 ≤ 255 := by
  intro c hc
  simp only [fallbackAvg] at hc
  by_cases h0 :
      0 < (pixels.filter fun p => !(decide (p.a < 200))).length
  · rw [if_pos h0] at hc
    rcases List.mem_singleton.mp hc with rfl
    have hmem : ∀ q ∈ pixels.filter fun p => !(decide (p.a < 200)), q ∈ pixels :=
      fun q hq => List.mem_of_mem_filter hq
    refine ⟨?_, ?_, ?_⟩
    · refine jsRound_le _ _ 255 h0 ?_
      have := sum_le_mul_length ((pixels.filter fun p => !(decide (p.a < 200))).map Pixel.r) 255 ?_
      · simpa using this
      · intro x hx
        rcases List.mem_map.mp hx with ⟨q, hq, rfl⟩
        exact (h q (hmem q hq)).1
    · refine jsRound_le _ _ 255 h0 ?_
      have := sum_le_mul_length ((pixels.filter fun p => !(decide (p.a < 200))).map Pixel.g) 255 ?_
      · simpa using this
      · intro x hx
        rcases List.mem_map.mp hx with ⟨q, hq, rfl⟩
        exact (h q (hmem q hq)).2.1
    · refine jsRound_le _ _ 255 h0 ?_
      have := sum_le_mul_length ((pixels.filter fun p => !(decide (p.a < 200))).map Pixel.b) 255 ?_
      · simpa using this
      · intro x hx
        rcases List.mem_map.mp hx with ⟨q, hq, rfl⟩
        exact (h q (hmem q hq)).2.2
  · rw [if_neg h0] at hc
    simp at hc

/-! ### Hex formatting lemmas -/

theorem digitChar_mem_hexChars (k : Nat) (h : k < 16) : Nat.digitChar k ∈ hexChars := by
  interval_cases k <;> decide

theorem toHexByte_mem (n : Nat) : ∀ c ∈ toHexByte n, n ≤ 255 → c ∈ hexChars := by
  intro c hc h255
  rcases List.mem_cons.mp hc with rfl | hc
  · exact digitChar_mem_hexChars _ (by omega)
  · rcases List.mem_cons.mp hc with rfl | hc
    · exact digitChar_mem_hexChars _ (by omega)
    · simp at hc

theorem isHexColor_rgbToHex (c : RGB) (h1 : c.1 ≤ 255) (h2 : c.2.1 ≤ 255)
    (h3 : c.2.2 ≤ 255) : isHexColor (rgbToHex c) := by
  refine ⟨?_, ?_, ?_⟩
  · simp [rgbToHex, toHexByte]
  · simp [rgbToHex]
  · intro ch hch
    have hch' : ch ∈ toHexByte c.1 ++ toHexByte c.2.1 ++ toHexByte c.2.2 := hch
    rcases List.mem_append.mp hch' with hh | hh
    · rcases List.mem_append.mp hh with hh2 | hh2
      · exact toHexByte_mem _ ch hh2 h1
      · exact toHexByte_mem _ ch hh2 h2
    · exact toHexByte_mem _ ch hh h3

/-! ### Uniform-image and pipeline case lemmas -/

theorem buildHistAux_replicate (p : Pixel) (hk : pixelKept p = true) :
    ∀ (n c : Nat), buildHistAux [(quantKey p, c)] (List.replicate n p) = [(quantKey p, c + n)] := by
  intro n
  induction n with
  | zero => intro c; simp [buildHistAux]
  | succ n ih =>
    intro c
    rw [List.replicate_succ]
    have hb : bumpKey (quantKey p) [(quantKey p, c)] = [(quantKey p, c + 1)] := by
      simp [bumpKey]
    have hstep : buildHistAux [(quantKey p, c)] (p :: List.replicate n p)
        = buildHistAux [(quantKey p, c + 1)] (List.replicate n p) := by
      simp [buildHistAux, hk, hb]
    rw [hstep, ih (c + 1)]
    have harith : c + 1 + n = c + (n + 1) := by omega
    rw [harith]

theorem buildHist_replicate (p : Pixel) (n : Nat) (hn : 1 ≤ n) (hk : pixelKept p = true) :
    buildHist (List.replicate n p) = [(quantKey p, n)] := by
  cases n with
  | zero => omega
  | succ n =>
    rw [buildHist, List.replicate_succ]
    have hstep : buildHistAux [] (p :: List.replicate n p)
        = buildHistAux [(quantKey p, 1)] (List.replicate n p) := by
      simp [buildHistAux, hk, bumpKey]
    rw [hstep, buildHistAux_replicate p hk n 1]
    have harith : 1 + n = n + 1 := by omega
    rw [harith]

theorem greedy_singleton (m : Nat) (k c : Nat) : greedy m [(k, c)] [] = [candOfKey k] := by
  have h1 : greedy m [(k, c)] [] =
      if m ≤ 1 then [candOfKey k] else greedy m [] [candOfKey k] := by
    simp [greedy]
  rw [h1]
  by_cases hb : m ≤ 1
  · rw [if_pos hb]
  · rw [if_neg hb]; simp [greedy]

theorem candOfKey_quantKey (p : Pixel) (hr : p.r ≤ 255) (hg : p.g ≤ 255)
    (hb : p.b ≤ 255) :
    candOfKey (quantKey p) =
      (((p.r >>> 3) <<< 3) + 4, ((p.g >>> 3) <<< 3) + 4, ((p.b >>> 3) <<< 3) + 4) := by
  have er : p.r >>> 3 = p.r / 8 := by simp [Nat.shiftRight_eq_div_pow]
  have eg : p.g >>> 3 = p.g / 8 := by simp [Nat.shiftRight_eq_div_pow]
  have eb : p.b >>> 3 = p.b / 8 := by simp [Nat.shiftRight_eq_div_pow]
  have es : ∀ x : Nat, x <<< 3 = 8 * x := by
    intro x
    rw [Nat.shiftLeft_eq]
    norm_num [Nat.mul_comm]
  rw [quantKey, encodeKey_eq _ _ _ (by omega) (by omega), candOfKey_eq]
  simp only [Prod.mk.injEq, er, eg, eb, es]
  omega

theorem extractPalette_of_ne (pixels : List Pixel) (m : Nat)
    (h : greedy m (sortEntries (buildHist pixels)) [] ≠ []) :
    extractPalette pixels m = greedy m (sortEntries (buildHist pixels)) [] := by
  simp only [extractPalette]
  rw [if_neg fun hc => h (List.length_eq_zero.mp hc)]

theorem extractPalette_of_empty (pixels : List Pixel) (m : Nat)
    (h : greedy m (sortEntries (buildHist pixels)) [] = []) :
    extractPalette pixels m = fallbackAvg pixels := by
  simp [extractPalette, h]

theorem greedy_hist_ne (pixels : List Pixel) (m : Nat) (h : buildHist pixels ≠ []) :
    greedy m (sortEntries (buildHist pixels)) [] ≠ [] := by
  have hs := sortEntries_ne_nil _ h
  cases hes : sortEntries (buildHist pixels) with
  | nil => exact absurd hes hs
  | cons e tl =>
    obtain ⟨t2, ht⟩ := greedy_cons_head m e tl
    rw [ht]
    simp

theorem shiftRight3_eq (x : Nat) : x >>> 3 = x / 8 := by
  simp [Nat.shiftRight_eq_div_pow]

theorem shiftLeft3_eq (x : Nat) : x <<< 3 = 8 * x := by
  rw [Nat.shiftLeft_eq]
  norm_num [Nat.mul_comm]

/-! ### Claim theorems -/

/-- C1: any two colors in the palette produced by the main greedy pass of
`extractPaletteFromImage` have Euclidean RGB distance strictly greater than 30
(distance = sqrt of the sum of squared channel differences, alpha ignored);
the pairwise-separation predicate is preserved by every acceptance step of
the greedy loop, and whenever the single-color fallback is not used the
returned palette is exactly the greedy palette, hence pairwise separated. -/
theorem greedy_palette_pairwise_separated (pixels : List Pixel) (m : Nat)
    (h : greedy m (sortEntries (buildHist pixels)) [] ≠ []) :
    (∀ pal : List RGB,
        (pal.Pairwise fun c1 c2 => (30 : ℝ) < Real.sqrt (distSq c1 c2)) →
        ((greedy m (sortEntries (buildHist pixels)) pal).Pairwise
            fun c1 c2 => (30 : ℝ) < Real.sqrt (distSq c1 c2))) ∧
    extractPalette pixels m = greedy m (sortEntries (buildHist pixels)) [] ∧
    ((extractPalette pixels m).Pairwise
        fun c1 c2 => (30 : ℝ) < Real.sqrt (distSq c1 c2)) := by
  have hbridge : ∀ l : List RGB,
      (l.Pairwise fun c1 c2 => 900 < distSq c1 c2) ↔
        (l.Pairwise fun c1 c2 => (30 : ℝ) < Real.sqrt (distSq c1 c2)) := by
    intro l
    constructor
    · intro hp
      exact hp.imp fun hab => (sqrt_gt_thirty _).mpr hab
    · intro hp
      exact hp.imp fun hab => (sqrt_gt_thirty _).mp hab
  refine ⟨?_, extractPalette_of_ne pixels m h, ?_⟩
  · intro pal hp
    exact (hbridge _).mp (greedy_pairwise m _ pal ((hbridge pal).mpr hp))
  · rw [extractPalette_of_ne pixels m h]
    exact (hbridge _).mp (greedy_pairwise m _ [] (by simp))

theorem greedy_palette_pairwise_separated_witness :
    extractPalette [⟨10, 20, 30, 255⟩] 6 =
      greedy 6 (sortEntries (buildHist [⟨10, 20, 30, 255⟩])) [] :=
  (greedy_palette_pairwise_separated [⟨10, 20, 30, 255⟩] 6 (by decide)).2.1

/-- C2 counterexample: with `maxColors = 0` and one opaque colored pixel the
greedy loop still accepts a first candidate before the break test, so the
returned palette has one entry and the claimed bound `length ≤ maxColors`
fails. -/
theorem palette_length_cex :
    ¬ ((extractPaletteFromImage [⟨10, 20, 30, 255⟩] 0).length ≤ 0) := by
  decide

/-- C2 (amended): for every pixel buffer and every `maxColors ≥ 1` the length
of the palette returned by `extractPaletteFromImage` never exceeds
`maxColors`; the result may be shorter, exactly 1 in the fallback, or 0. For
`maxColors = 0` the bound fails because the loop of lines 139-151 accepts one
candidate before testing the break condition. -/
theorem palette_length_le (pixels : List Pixel) (m : Nat) (hm : 1 ≤ m) :
    (extractPaletteFromImage pixels m).length ≤ m := by
  rw [extractPaletteFromImage, List.length_map]
  by_cases h : greedy m (sortEntries (buildHist pixels)) [] = []
  · rw [extractPalette_of_empty pixels m h]
    have := fallbackAvg_length pixels
    omega
  · rw [extractPalette_of_ne pixels m h]
    exact greedy_length m _ [] (by simpa using hm)

theorem palette_length_le_witness :
    (extractPaletteFromImage [⟨10, 20, 30, 255⟩] 6).length ≤ 6 :=
  palette_length_le [⟨10, 20, 30, 255⟩] 6 (by decide)

/-- C3: if every pixel is rejected by the histogram filters (alpha below 200
or near-white), `extractPaletteFromImage` returns exactly one color whose
channels are the rounded arithmetic means of R, G, B over the pixels with
alpha at least 200 — computed without the near-white filter — and returns the
empty palette when no such pixel exists. -/
theorem fallback_mean (pixels : List Pixel) (m : Nat)
    (hall : ∀ p ∈ pixels, pixelKept p = false) :
    ((pixels.filter fun p => !(decide (p.a < 200))) = [] →
        extractPaletteFromImage pixels m = []) ∧
    ((pixels.filter fun p => !(decide (p.a < 200))) ≠ [] →
        extractPaletteFromImage pixels m =
          [rgbToHex
            (jsRound ((pixels.filter fun p => !(decide (p.a < 200))).map Pixel.r).sum
               (pixels.filter fun p => !(decide (p.a < 200))).length,
             jsRound ((pixels.filter fun p => !(decide (p.a < 200))).map Pixel.g).sum
               (pixels.filter fun p => !(decide (p.a < 200))).length,
             jsRound ((pixels.filter fun p => !(decide (p.a < 200))).map Pixel.b).sum
               (pixels.filter fun p => !(decide (p.a < 200))).length)]) := by
  have hhist : buildHist pixels = [] := buildHist_filtered pixels hall
  have hgr : greedy m (sortEntries (buildHist pixels)) [] = [] := by
    rw [hhist]; rfl
  have hext : extractPalette pixels m = fallbackAvg pixels :=
    extractPalette_of_empty pixels m hgr
  constructor
  · intro hnil
    rw [extractPaletteFromImage, hext]
    simp [fallbackAvg, hnil]
  · intro hne
    rw [extractPaletteFromImage, hext]
    simp only [fallbackAvg]
    rw [if_pos (List.length_pos.mpr hne)]
    simp

theorem fallback_mean_witness :
    extractPaletteFromImage [⟨255, 255, 255, 255⟩] 6 = ["#ffffff"] := by
  have h := (fallback_mean [⟨255, 255, 255, 255⟩] 6 (by decide)).2 (by decide)
  exact h.trans (by decide)

/-- C4: a pixel contributes to the histogram iff its alpha is at least 200
and it is not near-white (not both max channel above 245 and min channel
above 230), every pixel of the buffer being visited; and the fallback average
pass filters on alpha alone, so it is insensitive to the near-white test. -/
theorem histogram_filter_exact :
    (∀ (pixels : List Pixel) (k : Nat),
        countKey (buildHist pixels) k =
          (pixels.filter fun p => pixelKept p && (quantKey p == k)).length) ∧
    (∀ pixels : List Pixel,
        fallbackAvg pixels =
          fallbackAvg (pixels.filter fun p => !(decide (p.a < 200)))) := by
  constructor
  · exact buildHist_count
  · intro pixels
    have hff : (pixels.filter fun p => !(decide (p.a < 200))).filter
          (fun p => !(decide (p.a < 200)))
        = pixels.filter fun p => !(decide (p.a < 200)) := by
      rw [List.filter_filter]
      simp
    simp only [fallbackAvg]
    rw [hff]

/-- C5 counterexample: for a buffer of the single uniform opaque color
(4, 4, 4) — whose channels are all congruent to 4 mod 8 — the bucket
representative coincides with the original sample value, so the claim's
"never the original sample value itself" fails. -/
theorem uniform_color_cex :
    extractPalette [⟨4, 4, 4, 255⟩] 1 = [((4 : Nat), (4 : Nat), (4 : Nat))] := by
  decide

/-- C5 (amended): for an image all of whose pixels are one opaque
(alpha = 255) non-near-white 8-bit color C and `maxColors ≥ 1`,
`extractPalette` returns exactly one color, C's bucket representative with
channels `((c >> 3) << 3) + 4`, each within plus-or-minus 4 of the
corresponding channel of C.  The representative can coincide with the sample
itself exactly when every channel of C is congruent to 4 mod 8, so "never the
original sample value" is dropped. -/
theorem uniform_color_palette (p : Pixel) (n m : Nat) (hn : 1 ≤ n) (_hm : 1 ≤ m)
    (hr : p.r ≤ 255) (hg : p.g ≤ 255) (hb : p.b ≤ 255) (ha : p.a = 255)
    (hw : ¬ (245 < max p.r (max p.g p.b) ∧ 230 < min p.r (min p.g p.b))) :
    extractPalette (List.replicate n p) m =
      [(((p.r >>> 3) <<< 3) + 4, ((p.g >>> 3) <<< 3) + 4, ((p.b >>> 3) <<< 3) + 4)] ∧
    ((p.r >>> 3) <<< 3) + 4 ≤ p.r + 4 ∧ p.r ≤ (((p.r >>> 3) <<< 3) + 4) + 4 ∧
    ((p.g >>> 3) <<< 3) + 4 ≤ p.g + 4 ∧ p.g ≤ (((p.g >>> 3) <<< 3) + 4) + 4 ∧
    ((p.b >>> 3) <<< 3) + 4 ≤ p.b + 4 ∧ p.b ≤ (((p.b >>> 3) <<< 3) + 4) + 4 := by
  have hk : pixelKept p = true := by
    unfold pixelKept
    rw [ha]
    simp only [Bool.and_eq_true, Bool.not_eq_true']
    constructor
    · simp
    · rw [Bool.and_eq_false_iff]
      rcases Decidable.not_and_iff_or_not.mp hw with hcase | hcase
      · left; simpa using hcase
      · right; simpa using hcase
  have hh : buildHist (List.replicate n p) = [(quantKey p, n)] :=
    buildHist_replicate p n hn hk
  have hsort : sortEntries (buildHist (List.replicate n p)) = [(quantKey p, n)] := by
    rw [hh]; rfl
  have hgr : greedy m (sortEntries (buildHist (List.replicate n p))) [] =
      [candOfKey (quantKey p)] := by
    rw [hsort, greedy_singleton]
  refine ⟨?_, ?_⟩
  · rw [extractPalette_of_ne _ m (by rw [hgr]; simp), hgr,
      candOfKey_quantKey p hr hg hb]
  · simp only [shiftRight3_eq, shiftLeft3_eq]
    omega

theorem uniform_color_palette_witness :
    extractPalette (List.replicate 2 (⟨10, 20, 30, 255⟩ : Pixel)) 6 =
      [((((10 : Nat) >>> 3) <<< 3) + 4, (((20 : Nat) >>> 3) <<< 3) + 4,
        (((30 : Nat) >>> 3) <<< 3) + 4)] :=
  (uniform_color_palette ⟨10, 20, 30, 255⟩ 2 6 (by decide) (by decide) (by decide)
    (by decide) (by decide) rfl (by decide)).1

/-- C6: `extractPaletteFromImage` is deterministic — two calls on identical
pixel buffers with the same `maxColors` return identical palettes in
identical order — and frequency ties are broken in a fixed, reproducible way:
the sorted bucket order restricted to any frequency `c` is exactly the
histogram insertion order restricted to `c`. -/
theorem extract_deterministic (pixels₁ pixels₂ : List Pixel) (m₁ m₂ : Nat)
    (hp : pixels₁ = pixels₂) (hm : m₁ = m₂) :
    extractPaletteFromImage pixels₁ m₁ = extractPaletteFromImage pixels₂ m₂ ∧
    ∀ c : Nat,
      (sortEntries (buildHist pixels₁)).filter (fun f => f.2 == c) =
        (buildHist pixels₁).filter (fun f => f.2 == c) := by
  subst hp; subst hm
  exact ⟨rfl, fun c => sortEntries_filter _ c⟩

theorem extract_deterministic_witness :
    extractPaletteFromImage [⟨10, 20, 30, 255⟩] 6 =
      extractPaletteFromImage [⟨10, 20, 30, 255⟩] 6 :=
  (extract_deterministic [⟨10, 20, 30, 255⟩] [⟨10, 20, 30, 255⟩] 6 6 rfl rfl).1

theorem extractPalette_channels (pixels : List Pixel) (m : Nat)
    (h : ∀ p ∈ pixels, p.r ≤ 255 ∧ p.g ≤ 255 ∧ p.b ≤ 255) :
    ∀ c ∈ extractPalette pixels m, c.1 ≤ 255 ∧ c.2.1 ≤ 255 ∧ c.2.2 ≤ 255 := by
  intro c hc
  by_cases hg : greedy m (sortEntries (buildHist pixels)) [] = []
  · rw [extractPalette_of_empty pixels m hg] at hc
    exact fallbackAvg_channels pixels h c hc
  · rw [extractPalette_of_ne pixels m hg] at hc
    obtain ⟨es', _, heq⟩ := greedy_decomp m (sortEntries (buildHist pixels)) []
    rw [heq] at hc
    simp only [List.nil_append] at hc
    rcases List.mem_map.mp hc with ⟨e, _, rfl⟩
    have hle := candOfKey_le e.1
    exact ⟨by omega, by omega, by omega⟩

/-- C7: every string returned by `extractPaletteFromImage` — main pass or
fallback — is a 7-character lowercase hex color, a leading `#` followed by
two zero-padded hex digits per channel; and a pure red input yields the
bucket-midpoint string "#fc0404", not literally "#ff0000". -/
theorem palette_hex_format (pixels : List Pixel) (m : Nat)
    (h : ∀ p ∈ pixels, p.r ≤ 255 ∧ p.g ≤ 255 ∧ p.b ≤ 255) :
    (∀ s ∈ extractPaletteFromImage pixels m, isHexColor s) ∧
    extractPaletteFromImage [⟨255, 0, 0, 255⟩] 6 = ["#fc0404"] := by
  constructor
  · intro s hs
    rcases List.mem_map.mp hs with ⟨c, hc, rfl⟩
    have hb := extractPalette_channels pixels m h c hc
    exact isHexColor_rgbToHex c hb.1 hb.2.1 hb.2.2
  · decide

theorem palette_hex_format_witness :
    (∀ s ∈ extractPaletteFromImage [⟨255, 0, 0, 255⟩] 6, isHexColor s) ∧
    extractPaletteFromImage [⟨255, 0, 0, 255⟩] 6 = ["#fc0404"] :=
  palette_hex_format [⟨255, 0, 0, 255⟩] 6 (by decide)

/-- C8: the returned palette is ordered most-frequent-first — the accepted
colors are the bucket representatives of a subsequence of the
descending-frequency bucket order — and with a nonempty histogram and
`maxColors ≥ 1` the first palette entry is the representative of a bucket of
maximal frequency. -/
theorem palette_order_most_frequent (pixels : List Pixel) (m : Nat)
    (h1 : buildHist pixels ≠ []) (_h2 : 1 ≤ m) :
    (∃ es' : List (Nat × Nat),
        es'.Sublist (sortEntries (buildHist pixels)) ∧
        greedy m (sortEntries (buildHist pixels)) [] =
          es'.map (fun e => candOfKey e.1) ∧
        es'.Pairwise fun a b => b.2 ≤ a.2) ∧
    (∃ e : Nat × Nat, e ∈ buildHist pixels ∧
        (∀ f ∈ buildHist pixels, f.2 ≤ e.2) ∧
        (extractPalette pixels m).head? = some (candOfKey e.1)) := by
  constructor
  · obtain ⟨es', hsub, heq⟩ := greedy_decomp m (sortEntries (buildHist pixels)) []
    exact ⟨es', hsub, by simpa using heq,
      List.Pairwise.sublist hsub (sortEntries_pairwise (buildHist pixels))⟩
  · cases hes : sortEntries (buildHist pixels) with
    | nil => exact absurd hes (sortEntries_ne_nil _ h1)
    | cons e tl =>
      refine ⟨e, ?_, ?_, ?_⟩
      · have hmem : e ∈ sortEntries (buildHist pixels) := by
          rw [hes]; exact List.mem_cons_self e tl
        exact (mem_sortEntries _ _).mp hmem
      · intro f hf
        have hf' : f ∈ sortEntries (buildHist pixels) := (mem_sortEntries _ _).mpr hf
        rw [hes] at hf'
        rcases List.mem_cons.mp hf' with rfl | hf''
        · exact Nat.le_refl _
        · have hp := sortEntries_pairwise (buildHist pixels)
          rw [hes] at hp
          exact (List.pairwise_cons.mp hp).1 f hf''
      · have hne : greedy m (sortEntries (buildHist pixels)) [] ≠ [] :=
          greedy_hist_ne pixels m h1
        rw [extractPalette_of_ne pixels m hne, hes]
        obtain ⟨t2, ht⟩ := greedy_cons_head m e tl
        rw [ht]
        rfl

theorem palette_order_most_frequent_witness :
    (∃ es' : List (Nat × Nat),
        es'.Sublist (sortEntries (buildHist [⟨10, 20, 30, 255⟩])) ∧
        greedy 6 (sortEntries (buildHist [⟨10, 20, 30, 255⟩])) [] =
          es'.map (fun e => candOfKey e.1) ∧
        es'.Pairwise fun a b => b.2 ≤ a.2) ∧
    (∃ e : Nat × Nat, e ∈ buildHist [⟨10, 20, 30, 255⟩] ∧
        (∀ f ∈ buildHist [⟨10, 20, 30, 255⟩], f.2 ≤ e.2) ∧
        (extractPalette [⟨10, 20, 30, 255⟩] 6).head? = some (candOfKey e.1)) :=
  palette_order_most_frequent [⟨10, 20, 30, 255⟩] 6 (by decide) (by decide)

/-- C9: if an extraction call rejects or resolves with an empty palette, the
caller's palette state is unchanged: `onExtract` and `onFileDrop` write the
palette only when the returned color list is nonempty, and on rejection they
set a nonempty human-readable error message while leaving the palette
untouched; a drop without a file changes nothing. -/
theorem caller_palette_preserved (s : ViewerState) (file : Option String)
    (outcome : Except Unit (List String)) :
    ((∀ u, outcome = Except.error u →
        (onExtract s outcome).palette = s.palette ∧
        (onExtract s outcome).error ≠ "") ∧
     (outcome = Except.ok [] → (onExtract s outcome).palette = s.palette) ∧
     (∀ cols, outcome = Except.ok cols →
        (onExtract s outcome).palette = s.palette ∨
          ((onExtract s outcome).palette = cols ∧ cols ≠ []))) ∧
    onFileDrop s none outcome = s ∧
    (∀ url, file = some url →
      ((∀ u, outcome = Except.error u →
          (onFileDrop s file outcome).palette = s.palette ∧
          (onFileDrop s file outcome).error ≠ "") ∧
       (outcome = Except.ok [] → (onFileDrop s file outcome).palette = s.palette) ∧
       (∀ cols, outcome = Except.ok cols →
          (onFileDrop s file outcome).palette = s.palette ∨
            ((onFileDrop s file outcome).palette = cols ∧ cols ≠ [])))) := by
  refine ⟨⟨?_, ?_, ?_⟩, rfl, ?_⟩
  · intro u h
    subst h
    refine ⟨rfl, ?_⟩
    simp [onExtract]
  · intro h
    subst h
    simp [onExtract]
  · intro cols h
    subst h
    by_cases hc : cols = []
    · subst hc
      left
      simp [onExtract]
    · right
      refine ⟨?_, hc⟩
      simp [onExtract, List.isEmpty_eq_true, hc]
  · intro url hf
    subst hf
    refine ⟨?_, ?_, ?_⟩
    · intro u h
      subst h
      refine ⟨rfl, ?_⟩
      simp [onFileDrop]
    · intro h
      subst h
      simp [onFileDrop]
    · intro cols h
      subst h
      by_cases hc : cols = []
      · subst hc
        left
        simp [onFileDrop]
      · right
        refine ⟨?_, hc⟩
        simp [onFileDrop, List.isEmpty_eq_true, hc]

theorem caller_palette_preserved_witness :
    (onExtract ⟨["#aabbcc"], "", false, "u"⟩ (Except.error ())).palette = ["#aabbcc"] ∧
    (onExtract ⟨["#aabbcc"], "", false, "u"⟩ (Except.error ())).error ≠ "" :=
  ((caller_palette_preserved ⟨["#aabbcc"], "", false, "u"⟩ (some "f")
    (Except.error ())).1.1) () rfl

/-- C10: packing 5-bit quantized channels as `(rq << 10) | (gq << 5) | bq`
and decoding with shifts and `& 31` round-trips exactly, every such key is at
most 32767, and distinct quantized triples map to distinct histogram keys. -/
theorem key_pack_roundtrip (rq gq bq : Nat) (hr : rq < 32) (hg : gq < 32)
    (hb : bq < 32) :
    ((encodeKey rq gq bq >>> 10) &&& 31 = rq ∧
     (encodeKey rq gq bq >>> 5) &&& 31 = gq ∧
     encodeKey rq gq bq &&& 31 = bq) ∧
    encodeKey rq gq bq ≤ 32767 ∧
    (∀ rq' gq' bq', rq' < 32 → gq' < 32 → bq' < 32 →
      encodeKey rq gq bq = encodeKey rq' gq' bq' →
      rq = rq' ∧ gq = gq' ∧ bq = bq') := by
  have he := encodeKey_eq rq gq bq hg hb
  refine ⟨⟨?_, ?_, ?_⟩, ?_, ?_⟩
  · rw [decode_hi, he]; omega
  · rw [decode_mid, he]; omega
  · rw [and_thirtyone, he]; omega
  · rw [he]; omega
  · intro rq' gq' bq' hr' hg' hb' heq
    rw [he, encodeKey_eq rq' gq' bq' hg' hb'] at heq
    omega

theorem key_pack_roundtrip_witness :
    ((encodeKey 1 2 3 >>> 10) &&& 31 = 1 ∧ (encodeKey 1 2 3 >>> 5) &&& 31 = 2 ∧
      encodeKey 1 2 3 &&& 31 = 3) ∧
    encodeKey 1 2 3 ≤ 32767 ∧
    (∀ rq' gq' bq', rq' < 32 → gq' < 32 → bq' < 32 →
      encodeKey 1 2 3 = encodeKey rq' gq' bq' → 1 = rq' ∧ 2 = gq' ∧ 3 = bq') :=
  key_pack_roundtrip 1 2 3 (by decide) (by decide) (by decide)
